import Mathlib

/-! # constexpr_hash_set

A shallow embedding of `src/constexpr_hash_set.cpp`.

* `std::array<T, N>` is a `List T`; the template parameter `N` is its length.
* `std::size_t` values are natural numbers.  The only expression of the source
  that can wrap is `N-1` in `contains` (for `N = 0`); it is embedded with an
  explicit reduction modulo `2^64`.
* A subscript whose index is computed from data (`bucket_offset_table[bucket_index]`,
  `values[reverse_index_table[I]]`, the three reads of `contains`) is a checked read:
  the embedding yields `none` when the index is outside the array.
* The `static_assert` of the class is a check made by the constructor before any
  table is computed.
-/

namespace ConstexprHashSet

/-- Number of values of `std::size_t` (64-bit). -/
def SIZE_WIDTH : Nat := 2 ^ 64

/-- `bucket_index<HashFunc>(num_buckets, val)`: `HashFunc()(val) % num_buckets`. -/
def bucket_index {T : Type} (H : T → Nat) (num_buckets : Nat) (val : T) : Nat :=
  H val % num_buckets

/-- `make_bucket_index_table<HashFunc, NumBuckets>(values)`:
the pack expansion `bucket_index<HashFunc>(NumBuckets, values[I])...` over `I < N`. -/
def make_bucket_index_table {T : Type} (H : T → Nat) (NumBuckets : Nat) (values : List T) :
    List Nat :=
  values.map (bucket_index H NumBuckets)

/-- `bucket_offset(bucket_index_table, index)`: the loop over `i < N` that increments
`actual_index` whenever `bucket_index_table[i] < index`. -/
def bucket_offset (bucket_index_table : List Nat) (index : Nat) : Nat :=
  bucket_index_table.foldl (fun actual_index b => if b < index then actual_index + 1 else actual_index) 0

/-- `make_bucket_offset_table<NumBuckets>(bucket_index_table)`:
the pack expansion `bucket_offset(bucket_index_table, I)...` over `I < NumBuckets`. -/
def make_bucket_offset_table (NumBuckets : Nat) (bucket_index_table : List Nat) : List Nat :=
  (List.range NumBuckets).map (bucket_offset bucket_index_table)

/-- The loop of `actual_index`: over `i < index`, increment `offset` whenever
`bucket_index_table[i] == bucket_index`. -/
def same_bucket_before (bucket_index_table : List Nat) (bucket_index index : Nat) : Nat :=
  (bucket_index_table.take index).foldl
    (fun offset b => if b = bucket_index then offset + 1 else offset) 0

/-- `actual_index(bucket_index_table, bucket_offset_table, index)`:
`bucket_offset_table[bucket_index] + offset`; both subscripts are checked reads. -/
def actual_index (bucket_index_table bucket_offset_table : List Nat) (index : Nat) : Option Nat :=
  match bucket_index_table[index]? with
  | none => none
  | some bucket_index =>
    match bucket_offset_table[bucket_index]? with
    | none => none
    | some base => some (base + same_bucket_before bucket_index_table bucket_index index)

/-- Evaluate a pack expansion whose elements may fail, left to right. -/
def expand {α : Type} (f : Nat → Option α) : List Nat → Option (List α)
  | [] => some []
  | I :: rest =>
    match f I with
    | none => none
    | some a =>
      match expand f rest with
      | none => none
      | some as => some (a :: as)

/-- `make_actual_index_table(bucket_index_table, bucket_offset_table)`:
the pack expansion `actual_index(bucket_index_table, bucket_offset_table, I)...` over `I < N`. -/
def make_actual_index_table (bucket_index_table bucket_offset_table : List Nat) :
    Option (List Nat) :=
  expand (actual_index bucket_index_table bucket_offset_table)
    (List.range bucket_index_table.length)

/-- The loop of `reverse_index` from position `i` on: return the first position whose
entry equals `index`, and `idx = 0` when the loop ends without a match. -/
def reverse_index_from : List Nat → Nat → Nat → Nat
  | [], _, _ => 0
  | a :: rest, index, i => if a = index then i else reverse_index_from rest index (i + 1)

/-- `reverse_index(actual_index_table, index)`. -/
def reverse_index (actual_index_table : List Nat) (index : Nat) : Nat :=
  reverse_index_from actual_index_table index 0

/-- `make_reverse_index_table(actual_index_table)`:
the pack expansion `reverse_index(actual_index_table, I)...` over `I < N`. -/
def make_reverse_index_table (actual_index_table : List Nat) : List Nat :=
  (List.range actual_index_table.length).map (reverse_index actual_index_table)

/-- `make_hash_set(values, reverse_index_table)`:
the pack expansion `values[reverse_index_table[I]]...` over `I < N`. -/
def make_hash_set {T : Type} (values : List T) (reverse_index_table : List Nat) :
    Option (List T) :=
  expand (fun I =>
    match reverse_index_table[I]? with
    | none => none
    | some r => values[r]?) (List.range values.length)

/-- Why a construction did not produce a set. -/
inductive BuildError where
  | invalidConfiguration
  | outOfRange
  deriving DecidableEq

/-- The class `constexpr_hash_set<NumBuckets, HashFunc, T, N>`: its template parameters
and its two data members. -/
structure constexpr_hash_set (T : Type) where
  NumBuckets : Nat
  HashFunc : T → Nat
  N : Nat
  m_bucket_offset_table : List Nat
  m_hash_map : List T

/-- `make_constexpr_hash_set<NumBuckets, HashFunc>(values)`: the `static_assert`
`NumBuckets > 2`, then the member initialisers of the constructor in order. -/
def make_constexpr_hash_set {T : Type} (NumBuckets : Nat) (H : T → Nat) (values : List T) :
    Except BuildError (constexpr_hash_set T) :=
  if NumBuckets > 2 then
    let m_bucket_offset_table :=
      make_bucket_offset_table NumBuckets (make_bucket_index_table H NumBuckets values)
    match make_actual_index_table (make_bucket_index_table H NumBuckets values)
        m_bucket_offset_table with
    | none => .error .outOfRange
    | some actual_index_table =>
      match make_hash_set values (make_reverse_index_table actual_index_table) with
      | none => .error .outOfRange
      | some m_hash_map =>
        .ok { NumBuckets := NumBuckets, HashFunc := H, N := values.length,
              m_bucket_offset_table := m_bucket_offset_table, m_hash_map := m_hash_map }
  else .error .invalidConfiguration

/-- The `for` loop of `contains`, started at `bucket_i` with `remaining` iterations left
(`remaining = bucket_end - bucket_i`): `m_hash_map[bucket_i]` is a checked read. -/
def scan {T : Type} [DecidableEq T] (m_hash_map : List T) (value : T) : Nat → Nat → Option Bool
  | _, 0 => some false
  | bucket_i, remaining + 1 =>
    match m_hash_map[bucket_i]? with
    | none => none
    | some x => if value = x then some true else scan m_hash_map value (bucket_i + 1) remaining

/-- `constexpr_hash_set::contains(value)`.  The test for the last bucket is the one of
the source, `bucket == N-1`, with `N-1` computed in `std::size_t`.  `none` is an
out-of-range subscript. -/
def contains {T : Type} [DecidableEq T] (s : constexpr_hash_set T) (value : T) : Option Bool :=
  let bucket := bucket_index s.HashFunc s.NumBuckets value
  match s.m_bucket_offset_table[bucket]? with
  | none => none
  | some bucket_i =>
    let bucket_end : Option Nat :=
      if bucket = (s.N + SIZE_WIDTH - 1) % SIZE_WIDTH then some s.N
      else s.m_bucket_offset_table[bucket + 1]?
    match bucket_end with
    | none => none
    | some bucket_end => scan s.m_hash_map value bucket_i (bucket_end - bucket_i)

/-- `int_hash::operator()`: `static_cast<std::size_t>(val)`. -/
def int_hash (val : Int) : Nat :=
  (val % (SIZE_WIDTH : Int)).toNat

/-- The key array of `main`. -/
def main_values : List Int := [33, 23, 532, 32, 10]

/-- The bucket count of `main`. -/
def main_num_buckets : Nat := 3

/-- The slot that the construction assigns to original index `i`, written without
checked reads: `offset[bucket_of(i)]` plus the number of earlier indices of the same
bucket.  `actual_index` is shown to return this value (`actual_index_eq_slot`). -/
def slot (t : List Nat) (i : Nat) : Nat :=
  bucket_offset t (t.getD i 0) + same_bucket_before t (t.getD i 0) i

/-- The value of `m_hash_map` after a successful construction, written without checked
reads (`make_constexpr_hash_set_ok` shows that the constructor returns it). -/
def final_table {T : Type} (H : T → Nat) (NumBuckets : Nat) (values : List T) : List T :=
  (make_reverse_index_table
    ((List.range values.length).map (slot (make_bucket_index_table H NumBuckets values)))).filterMap
    (fun r => values[r]?)


/-- The set returned by a successful construction, written without checked reads
(`make_constexpr_hash_set_built` shows that the constructor returns it). -/
def built_set {T : Type} (H : T → Nat) (NumBuckets : Nat) (values : List T) :
    constexpr_hash_set T :=
  { NumBuckets := NumBuckets, HashFunc := H, N := values.length,
    m_bucket_offset_table :=
      make_bucket_offset_table NumBuckets (make_bucket_index_table H NumBuckets values),
    m_hash_map := final_table H NumBuckets values }

/-- The initialiser of `bucket_end` in `contains`:
`(bucket == N-1) ? N : m_bucket_offset_table[bucket+1]`, the subscript being a checked
read (`contains_eq_bucket_end` shows that `contains` scans up to this value). -/
def bucket_end {T : Type} (s : constexpr_hash_set T) (value : T) : Option Nat :=
  if bucket_index s.HashFunc s.NumBuckets value = (s.N + SIZE_WIDTH - 1) % SIZE_WIDTH
  then some s.N
  else s.m_bucket_offset_table[bucket_index s.HashFunc s.NumBuckets value + 1]?

/-- The loop of `reverse_index` from position `i` on, keeping apart its two exits:
`some i` for `return i` inside the loop, `none` for the fallback `return idx` after it
(`reverse_index_from_eq_search` relates it to `reverse_index_from`). -/
def reverse_index_search : List Nat → Nat → Nat → Option Nat
  | [], _, _ => none
  | a :: rest, index, i => if a = index then some i else reverse_index_search rest index (i + 1)

/-- The bucket histogram of the specification: `hist[c]` is the number of entries of the
bucket-index table equal to `c`, for `c < NumBuckets`. -/
def bucket_histogram (NumBuckets : Nat) (bucket_index_table : List Nat) : List Nat :=
  (List.range NumBuckets).map (fun c => bucket_index_table.count c)

/-- The exclusive prefix sum of the specification: entry `b` is the sum of the entries
before position `b`. -/
def exclusive_prefix_sum (hist : List Nat) : List Nat :=
  (List.range hist.length).map (fun b => (hist.take b).sum)

/-- The stable bucket sort of the specification: the concatenation, for
`b = 0, 1, ..., NumBuckets-1`, of the keys of bucket `b` in their original order. -/
def stable_bucket_sort {T : Type} (H : T → Nat) (NumBuckets : Nat) (values : List T) : List T :=
  (List.range NumBuckets).flatMap
    (fun b => values.filter (fun k => decide (bucket_index H NumBuckets k = b)))

/-! ## Counting lemmas for the offset table and the within-bucket rank -/

theorem foldl_count_eq (p : Nat → Bool) (l : List Nat) (k : Nat) :
    l.foldl (fun a b => if p b = true then a + 1 else a) k = k + l.countP p := by
  induction l generalizing k with
  | nil => simp
  | cons x xs ih =>
    simp only [List.foldl_cons, List.countP_cons]
    rw [ih]
    by_cases h : p x = true
    · simp [h]; omega
    · simp [h]

theorem bucket_offset_eq (t : List Nat) (b : Nat) :
    bucket_offset t b = t.countP (fun x => decide (x < b)) := by
  unfold bucket_offset
  have h := foldl_count_eq (fun x => decide (x < b)) t 0
  simpa using h

theorem same_bucket_before_eq (t : List Nat) (b i : Nat) :
    same_bucket_before t b i = (t.take i).count b := by
  unfold same_bucket_before
  have h := foldl_count_eq (fun x => decide (x = b)) (t.take i) 0
  simp only [decide_eq_true_eq, Nat.zero_add] at h
  rw [h, List.count]
  congr 1

theorem bucket_offset_zero (t : List Nat) : bucket_offset t 0 = 0 := by
  rw [bucket_offset_eq]
  simp

theorem bucket_offset_succ (t : List Nat) (b : Nat) :
    bucket_offset t (b + 1) = bucket_offset t b + t.count b := by
  rw [bucket_offset_eq, bucket_offset_eq]
  induction t with
  | nil => simp
  | cons x xs ih =>
    simp only [List.countP_cons, List.count_cons, ih]
    by_cases h1 : x < b
    · have h2 : x < b + 1 := by omega
      have h3 : ¬ x = b := by omega
      simp [h1, h2, h3]
      omega
    · by_cases h3 : x = b
      · subst h3
        simp
        omega
      · have h2 : ¬ x < b + 1 := by omega
        simp [h1, h2, h3]

theorem bucket_offset_mono (t : List Nat) {b c : Nat} (h : b ≤ c) :
    bucket_offset t b ≤ bucket_offset t c := by
  rw [bucket_offset_eq, bucket_offset_eq]
  apply List.countP_mono_left
  intro x _ hx
  simp only [decide_eq_true_eq] at hx ⊢
  omega

theorem bucket_offset_le_length (t : List Nat) (b : Nat) : bucket_offset t b ≤ t.length := by
  rw [bucket_offset_eq]
  exact List.countP_le_length _

theorem bucket_offset_all (t : List Nat) (nb : Nat) (h : ∀ x ∈ t, x < nb) :
    bucket_offset t nb = t.length := by
  rw [bucket_offset_eq, List.countP_eq_length]
  intro x hx
  simpa using h x hx

theorem rank_lt_count (t : List Nat) (i : Nat) (hi : i < t.length) :
    (t.take i).count t[i] < t.count t[i] := by
  generalize hb : t[i] = b
  have h2 : t.count b = (t.take i).count b + (t.drop i).count b := by
    rw [← List.count_append, List.take_append_drop]
  have h3 : t.drop i = b :: t.drop (i + 1) := by
    rw [← hb, List.getElem_cons_drop]
  rw [h2, h3, List.count_cons_self]
  omega

theorem rank_lt_rank (t : List Nat) (i j : Nat) (hij : i < j) (hj : j < t.length)
    (hb : t[i] = t[j]) : (t.take i).count t[i] < (t.take j).count t[j] := by
  have hi : i < t.length := by omega
  have h1 : (t.take (i + 1)).count t[i] = (t.take i).count t[i] + 1 := by
    rw [List.take_succ, List.count_append]
    simp [List.getElem?_eq_getElem hi]
  have h2 : (t.take (i + 1)).count t[i] ≤ (t.take j).count t[i] := by
    apply List.Sublist.count_le
    have : t.take (i + 1) = (t.take j).take (i + 1) := by
      rw [List.take_take]
      congr 1
      omega
    rw [this]
    exact List.take_sublist _ _
  rw [← hb]
  omega

theorem slot_eq (t : List Nat) (i : Nat) (hi : i < t.length) :
    slot t i = bucket_offset t t[i] + (t.take i).count t[i] := by
  unfold slot
  rw [List.getD_eq_getElem t 0 hi, same_bucket_before_eq]

theorem slot_ge (t : List Nat) (i : Nat) (hi : i < t.length) :
    bucket_offset t t[i] ≤ slot t i := by
  rw [slot_eq t i hi]
  omega

theorem slot_lt_next (t : List Nat) (i : Nat) (hi : i < t.length) :
    slot t i < bucket_offset t (t[i] + 1) := by
  rw [slot_eq t i hi, bucket_offset_succ]
  have := rank_lt_count t i hi
  omega

theorem slot_lt_length (t : List Nat) (i : Nat) (hi : i < t.length) :
    slot t i < t.length := by
  have h1 := slot_lt_next t i hi
  have h2 := bucket_offset_le_length t (t[i] + 1)
  omega

/-- A slot lying in the half-open range of bucket `b` belongs to an index of bucket `b`. -/
theorem slot_bucket (t : List Nat) (i b : Nat) (hi : i < t.length)
    (h1 : bucket_offset t b ≤ slot t i) (h2 : slot t i < bucket_offset t (b + 1)) :
    t[i] = b := by
  have h3 := slot_ge t i hi
  have h4 := slot_lt_next t i hi
  rcases Nat.lt_trichotomy t[i] b with h | h | h
  · have := bucket_offset_mono t (show t[i] + 1 ≤ b by omega)
    omega
  · exact h
  · have := bucket_offset_mono t (show b + 1 ≤ t[i] by omega)
    omega

theorem slot_lt_of_lt (t : List Nat) (i j : Nat) (hij : i < j) (hj : j < t.length)
    (hb : t[i] = t[j]) : slot t i < slot t j := by
  have hi : i < t.length := by omega
  rw [slot_eq t i hi, slot_eq t j hj]
  have := rank_lt_rank t i j hij hj hb
  rw [hb] at this ⊢
  omega

theorem slot_inj (t : List Nat) (i j : Nat) (hi : i < t.length) (hj : j < t.length)
    (h : slot t i = slot t j) : i = j := by
  have hb : t[i] = t[j] := by
    apply slot_bucket t i t[j] hi
    · rw [h]; exact slot_ge t j hj
    · rw [h]; exact slot_lt_next t j hj
  rcases Nat.lt_trichotomy i j with h1 | h1 | h1
  · have := slot_lt_of_lt t i j h1 hj hb
    omega
  · exact h1
  · have := slot_lt_of_lt t j i h1 hi hb.symm
    omega

theorem slot_surj (t : List Nat) (s : Nat) (hs : s < t.length) :
    ∃ i, i < t.length ∧ slot t i = s := by
  let f : Fin t.length → Fin t.length := fun i => ⟨slot t i.1, slot_lt_length t i.1 i.2⟩
  have hf : Function.Injective f := by
    intro a b hab
    have h : slot t a.1 = slot t b.1 := congrArg Fin.val hab
    exact Fin.ext (slot_inj t a.1 b.1 a.2 b.2 h)
  obtain ⟨i, hi⟩ := (Finite.injective_iff_surjective.mp hf) ⟨s, hs⟩
  exact ⟨i.1, i.2, congrArg Fin.val hi⟩

/-! ## Pack expansions with checked reads -/

theorem expand_eq_map {α : Type} (f : Nat → Option α) (g : Nat → α) (l : List Nat)
    (h : ∀ x ∈ l, f x = some (g x)) : expand f l = some (l.map g) := by
  induction l with
  | nil => rfl
  | cons x xs ih =>
    have hx : f x = some (g x) := h x (List.mem_cons_self x xs)
    have hxs : expand f xs = some (xs.map g) :=
      ih (fun y hy => h y (List.mem_cons_of_mem x hy))
    simp [expand, hx, hxs]

theorem expand_eq_filterMap {α : Type} (f : Nat → Option α) (l : List Nat)
    (h : ∀ x ∈ l, ∃ a, f x = some a) : expand f l = some (l.filterMap f) := by
  induction l with
  | nil => rfl
  | cons x xs ih =>
    obtain ⟨a, ha⟩ := h x (List.mem_cons_self x xs)
    have hxs : expand f xs = some (xs.filterMap f) :=
      ih (fun y hy => h y (List.mem_cons_of_mem x hy))
    simp [expand, ha, hxs, List.filterMap_cons]

theorem expand_getElem {α : Type} (f : Nat → Option α) (l : List Nat) (m : List α)
    (h : expand f l = some m) :
    m.length = l.length ∧ ∀ k (hk : k < l.length), m[k]? = f l[k] := by
  induction l generalizing m with
  | nil =>
    simp [expand] at h
    subst h
    simp
  | cons x xs ih =>
    unfold expand at h
    cases hx : f x with
    | none => simp [hx] at h
    | some a =>
      cases hxs : expand f xs with
      | none => simp [hx, hxs] at h
      | some as =>
        simp [hx, hxs] at h
        subst h
        obtain ⟨h1, h2⟩ := ih as hxs
        refine ⟨by simp [h1], ?_⟩
        intro k hk
        cases k with
        | zero => simp [hx]
        | succ k =>
          simp only [List.getElem?_cons_succ, List.getElem_cons_succ]
          exact h2 k (by simpa using hk)

theorem offset_table_length (nb : Nat) (t : List Nat) :
    (make_bucket_offset_table nb t).length = nb := by
  simp [make_bucket_offset_table]

theorem offset_table_getElem? (nb : Nat) (t : List Nat) (b : Nat) (hb : b < nb) :
    (make_bucket_offset_table nb t)[b]? = some (bucket_offset t b) := by
  simp [make_bucket_offset_table, List.getElem?_map, List.getElem?_range hb]

theorem offset_table_getElem?_none (nb : Nat) (t : List Nat) (b : Nat) (hb : nb ≤ b) :
    (make_bucket_offset_table nb t)[b]? = none := by
  apply List.getElem?_eq_none
  rw [offset_table_length]
  exact hb

theorem actual_index_eq_slot (nb : Nat) (t : List Nat) (hnb : ∀ x ∈ t, x < nb)
    (i : Nat) (hi : i < t.length) :
    actual_index t (make_bucket_offset_table nb t) i = some (slot t i) := by
  have hb : t[i] < nb := hnb _ (List.getElem_mem hi)
  unfold actual_index
  rw [List.getElem?_eq_getElem hi]
  simp only []
  rw [offset_table_getElem? nb t t[i] hb]
  simp only []
  unfold slot
  rw [List.getD_eq_getElem t 0 hi]

/-- The slot table of the construction, as a list. -/
theorem make_actual_index_table_eq (nb : Nat) (t : List Nat) (hnb : ∀ x ∈ t, x < nb) :
    make_actual_index_table t (make_bucket_offset_table nb t)
      = some ((List.range t.length).map (slot t)) := by
  unfold make_actual_index_table
  apply expand_eq_map
  intro i hi
  exact actual_index_eq_slot nb t hnb i (List.mem_range.mp hi)

/-! ## The inverse table -/

theorem reverse_index_from_nodup (l : List Nat) (hl : l.Nodup) (s k p : Nat)
    (hp : p < l.length) (h : l[p] = s) : reverse_index_from l s k = k + p := by
  induction l generalizing k p with
  | nil => simp at hp
  | cons a rest ih =>
    cases p with
    | zero =>
      simp only [List.getElem_cons_zero] at h
      simp [reverse_index_from, h]
    | succ q =>
      simp only [List.getElem_cons_succ] at h
      have hq : q < rest.length := by simpa using hp
      have hmem : s ∈ rest := h ▸ List.getElem_mem hq
      have hne : ¬ a = s := by
        intro hEq
        subst hEq
        exact (List.nodup_cons.mp hl).1 hmem
      simp only [reverse_index_from, hne, if_false]
      rw [ih (List.nodup_cons.mp hl).2 (k + 1) q hq h]
      omega

theorem slot_table_nodup (t : List Nat) : ((List.range t.length).map (slot t)).Nodup := by
  apply List.Nodup.map_on _ (List.nodup_range _)
  intro x hx y hy hxy
  exact slot_inj t x y (List.mem_range.mp hx) (List.mem_range.mp hy) hxy

theorem reverse_index_slot (t : List Nat) (i : Nat) (hi : i < t.length) :
    reverse_index ((List.range t.length).map (slot t)) (slot t i) = i := by
  unfold reverse_index
  rw [reverse_index_from_nodup _ (slot_table_nodup t) (slot t i) 0 i (by simpa using hi)
    (by simp)]
  omega

theorem reverse_table_perm (t : List Nat) :
    (make_reverse_index_table ((List.range t.length).map (slot t))).Perm
      (List.range t.length) := by
  unfold make_reverse_index_table
  simp only [List.length_map, List.length_range]
  have hnd : ((List.range t.length).map
      (reverse_index ((List.range t.length).map (slot t)))).Nodup := by
    apply List.Nodup.map_on _ (List.nodup_range _)
    intro x hx y hy hxy
    obtain ⟨i, hi, hix⟩ := slot_surj t x (List.mem_range.mp hx)
    obtain ⟨j, hj, hjy⟩ := slot_surj t y (List.mem_range.mp hy)
    rw [← hix, ← hjy, reverse_index_slot t i hi, reverse_index_slot t j hj] at hxy
    rw [← hix, ← hjy, hxy]
  have hsub : (List.range t.length).map
      (reverse_index ((List.range t.length).map (slot t))) ⊆ List.range t.length := by
    intro r hr
    obtain ⟨x, hx, hxr⟩ := List.mem_map.mp hr
    obtain ⟨i, hi, hix⟩ := slot_surj t x (List.mem_range.mp hx)
    rw [← hix, reverse_index_slot t i hi] at hxr
    rw [← hxr]
    exact List.mem_range.mpr hi
  exact (List.subperm_of_subset hnd hsub).perm_of_length_le (by simp)

/-! ## The final table -/

theorem expand_comp {α : Type} (f : Nat → Option α) (f' : Nat → Option α) (g : Nat → Nat)
    (l : List Nat) (h : ∀ x ∈ l, f x = f' (g x)) : expand f l = expand f' (l.map g) := by
  induction l with
  | nil => rfl
  | cons x xs ih =>
    have hx := h x (List.mem_cons_self x xs)
    have hxs := ih (fun y hy => h y (List.mem_cons_of_mem x hy))
    simp [expand, hx, hxs]

theorem range_map_getD (l : List Nat) : (List.range l.length).map (fun i => l.getD i 0) = l := by
  apply List.ext_getElem
  · simp
  · intro n h1 h2
    simp [List.getElem?_eq_getElem h2]

theorem range_filterMap_getElem? {T : Type} (values : List T) :
    (List.range values.length).filterMap (fun i => values[i]?) = values := by
  induction values using List.reverseRecOn with
  | nil => rfl
  | append_singleton xs x ih =>
    rw [List.length_append, List.length_singleton, List.range_succ, List.filterMap_append]
    have h1 : (List.range xs.length).filterMap (fun i => (xs ++ [x])[i]?)
        = (List.range xs.length).filterMap (fun i => xs[i]?) := by
      apply List.filterMap_congr
      intro i hi
      exact List.getElem?_append_left (List.mem_range.mp hi)
    rw [h1, ih]
    simp

theorem make_hash_set_eq {T : Type} (values : List T) (rit : List Nat)
    (hlen : rit.length = values.length) (hr : ∀ r ∈ rit, r < values.length) :
    make_hash_set values rit = some (rit.filterMap (fun r => values[r]?)) := by
  unfold make_hash_set
  have h1 : expand (fun I => match rit[I]? with
      | none => none
      | some r => values[r]?) (List.range values.length)
      = expand (fun r => values[r]?) ((List.range values.length).map (fun i => rit.getD i 0)) := by
    apply expand_comp
    intro I hI
    have hI2 : I < rit.length := by rw [hlen]; exact List.mem_range.mp hI
    rw [List.getElem?_eq_getElem hI2, List.getD_eq_getElem rit 0 hI2]
  rw [h1, ← hlen, range_map_getD]
  apply expand_eq_filterMap
  intro r hr2
  exact ⟨_, List.getElem?_eq_getElem (hr r hr2)⟩

theorem bucket_table_length {T : Type} (H : T → Nat) (nb : Nat) (K : List T) :
    (make_bucket_index_table H nb K).length = K.length := by
  simp [make_bucket_index_table]

theorem bucket_table_lt {T : Type} (H : T → Nat) (nb : Nat) (hnb : 0 < nb) (K : List T) :
    ∀ x ∈ make_bucket_index_table H nb K, x < nb := by
  intro x hx
  obtain ⟨v, _, hv⟩ := List.mem_map.mp hx
  rw [← hv]
  exact Nat.mod_lt _ hnb

theorem bucket_table_getElem {T : Type} (H : T → Nat) (nb : Nat) (K : List T) (i : Nat)
    (hi : i < K.length) (hi2 : i < (make_bucket_index_table H nb K).length) :
    (make_bucket_index_table H nb K)[i] = bucket_index H nb K[i] := by
  simp [make_bucket_index_table]

theorem make_hash_set_final {T : Type} (H : T → Nat) (nb : Nat) (K : List T) :
    make_hash_set K (make_reverse_index_table
      ((List.range K.length).map (slot (make_bucket_index_table H nb K))))
      = some (final_table H nb K) := by
  have hp := reverse_table_perm (make_bucket_index_table H nb K)
  rw [bucket_table_length] at hp
  apply make_hash_set_eq
  · simpa using hp.length_eq
  · intro r hr
    exact List.mem_range.mp (hp.subset hr)

theorem make_constexpr_hash_set_ok {T : Type} (nb : Nat) (H : T → Nat) (K : List T)
    (hnb : 2 < nb) :
    make_constexpr_hash_set nb H K = .ok
      { NumBuckets := nb, HashFunc := H, N := K.length,
        m_bucket_offset_table := make_bucket_offset_table nb (make_bucket_index_table H nb K),
        m_hash_map := final_table H nb K } := by
  unfold make_constexpr_hash_set
  rw [if_pos hnb]
  simp only []
  rw [make_actual_index_table_eq nb _ (bucket_table_lt H nb (by omega) K)]
  simp only []
  rw [bucket_table_length, make_hash_set_final]

theorem final_table_perm {T : Type} (H : T → Nat) (nb : Nat) (K : List T) :
    (final_table H nb K).Perm K := by
  have hp := reverse_table_perm (make_bucket_index_table H nb K)
  rw [bucket_table_length] at hp
  have h := hp.filterMap (fun r => K[r]?)
  rw [range_filterMap_getElem?] at h
  exact h

theorem final_table_length {T : Type} (H : T → Nat) (nb : Nat) (K : List T) :
    (final_table H nb K).length = K.length :=
  (final_table_perm H nb K).length_eq

theorem final_table_slot {T : Type} (H : T → Nat) (nb : Nat) (K : List T) (i : Nat)
    (hi : i < K.length) :
    (final_table H nb K)[slot (make_bucket_index_table H nb K) i]? = K[i]? := by
  have hi2 : i < (make_bucket_index_table H nb K).length := by
    rw [bucket_table_length]; exact hi
  have hs : slot (make_bucket_index_table H nb K) i < K.length := by
    have := slot_lt_length _ i hi2
    rwa [bucket_table_length] at this
  have hm := make_hash_set_final H nb K
  unfold make_hash_set at hm
  obtain ⟨_, h2⟩ := expand_getElem _ _ _ hm
  have h3 := h2 (slot (make_bucket_index_table H nb K) i) (by simpa using hs)
  rw [h3]
  have hr := reverse_index_slot (make_bucket_index_table H nb K) i hi2
  rw [bucket_table_length] at hr
  simp [make_reverse_index_table, List.getElem?_range hs, hr]

theorem offset_table_getD (nb : Nat) (t : List Nat) (b : Nat) (hb : b < nb) :
    (make_bucket_offset_table nb t).getD b 0 = bucket_offset t b := by
  rw [List.getD_eq_getElem?_getD, offset_table_getElem? nb t b hb]
  rfl

/-- The entry after the last bucket would be `N`: every bucket id is below `NumBuckets`. -/
theorem bucket_offset_last {T : Type} (H : T → Nat) (nb : Nat) (K : List T) (hnb : 0 < nb) :
    bucket_offset (make_bucket_index_table H nb K) nb = K.length := by
  rw [bucket_offset_all _ nb (bucket_table_lt H nb hnb K), bucket_table_length]

/-! ## The query -/

theorem scan_true_mem {T : Type} [DecidableEq T] (m : List T) (v : T) (i k : Nat)
    (h : scan m v i k = some true) : v ∈ m := by
  induction k generalizing i with
  | zero => simp [scan] at h
  | succ k ih =>
    unfold scan at h
    cases hx : m[i]? with
    | none => simp [hx] at h
    | some x =>
      simp only [hx] at h
      by_cases hv : v = x
      · rw [hv]
        exact List.getElem?_mem hx
      · rw [if_neg hv] at h
        exact ih (i + 1) h

/-- Whatever the tables of the set, `contains` answers `true` only for a value stored
in `m_hash_map`. -/
theorem contains_true_mem {T : Type} [DecidableEq T] (s : constexpr_hash_set T) (v : T)
    (h : contains s v = some true) : v ∈ s.m_hash_map := by
  unfold contains at h
  simp only [] at h
  cases h1 : s.m_bucket_offset_table[bucket_index s.HashFunc s.NumBuckets v]? with
  | none => simp [h1] at h
  | some bucket_i =>
    simp only [h1] at h
    split at h
    · simp at h
    · exact scan_true_mem _ _ _ _ h

/-- On a built set, an answer `true` is given only for a key of the key array. -/
theorem contains_true_mem_keys {T : Type} [DecidableEq T] (nb : Nat) (H : T → Nat)
    (K : List T) (s : constexpr_hash_set T) (hs : make_constexpr_hash_set nb H K = .ok s)
    (v : T) (h : contains s v = some true) : v ∈ K := by
  have hnb : 2 < nb := by
    by_contra hc
    unfold make_constexpr_hash_set at hs
    rw [if_neg hc] at hs
    cases hs
  rw [make_constexpr_hash_set_ok nb H K hnb] at hs
  injection hs with hs
  subst hs
  exact (final_table_perm H nb K).subset (contains_true_mem _ v h)

theorem make_constexpr_hash_set_built {T : Type} (nb : Nat) (H : T → Nat) (K : List T)
    (hnb : 2 < nb) : make_constexpr_hash_set nb H K = .ok (built_set H nb K) :=
  make_constexpr_hash_set_ok nb H K hnb

/-- The loop of `contains` over a range that lies inside the table returns a boolean,
and the boolean tells whether the value occurs in the range. -/
theorem scan_spec {T : Type} [DecidableEq T] (m : List T) (v : T) (k i : Nat)
    (h : i + k ≤ m.length) :
    ∃ r, scan m v i k = some r ∧ (r = true ↔ ∃ s, i ≤ s ∧ s < i + k ∧ m[s]? = some v) := by
  induction k generalizing i with
  | zero =>
    refine ⟨false, rfl, ?_⟩
    constructor
    · intro hf; cases hf
    · rintro ⟨s, h1, h2, _⟩; omega
  | succ k ih =>
    have hi : i < m.length := by omega
    unfold scan
    rw [List.getElem?_eq_getElem hi]
    simp only []
    by_cases hv : v = m[i]
    · rw [if_pos hv]
      refine ⟨true, rfl, ?_⟩
      constructor
      · intro _
        exact ⟨i, Nat.le_refl i, by omega, by rw [List.getElem?_eq_getElem hi, hv]⟩
      · intro _; rfl
    · rw [if_neg hv]
      obtain ⟨r, hr, hiff⟩ := ih (i + 1) (by omega)
      refine ⟨r, hr, ?_⟩
      rw [hiff]
      constructor
      · rintro ⟨s, h1, h2, h3⟩
        exact ⟨s, by omega, by omega, h3⟩
      · rintro ⟨s, h1, h2, h3⟩
        have hne : s ≠ i := by
          intro hsi
          subst hsi
          rw [List.getElem?_eq_getElem hi] at h3
          injection h3 with h3
          exact hv h3.symm
        exact ⟨s, by omega, by omega, h3⟩

theorem contains_eq_bucket_end {T : Type} [DecidableEq T] (s : constexpr_hash_set T) (v : T) :
    contains s v =
      match s.m_bucket_offset_table[bucket_index s.HashFunc s.NumBuckets v]? with
      | none => none
      | some bucket_i =>
        match bucket_end s v with
        | none => none
        | some e => scan s.m_hash_map v bucket_i (e - bucket_i) := rfl

theorem bucket_end_built_last {T : Type} (H : T → Nat) (nb : Nat) (K : List T) (v : T)
    (h : bucket_index H nb v = (K.length + SIZE_WIDTH - 1) % SIZE_WIDTH) :
    bucket_end (built_set H nb K) v = some K.length := by
  unfold bucket_end built_set
  simp only []
  rw [if_pos h]

theorem bucket_end_built_next {T : Type} (H : T → Nat) (nb : Nat) (K : List T) (v : T)
    (h : bucket_index H nb v ≠ (K.length + SIZE_WIDTH - 1) % SIZE_WIDTH)
    (hb : bucket_index H nb v + 1 < nb) :
    bucket_end (built_set H nb K) v
      = some (bucket_offset (make_bucket_index_table H nb K) (bucket_index H nb v + 1)) := by
  unfold bucket_end built_set
  simp only []
  rw [if_neg h, offset_table_getElem? nb _ _ hb]

theorem bucket_end_built_none {T : Type} (H : T → Nat) (nb : Nat) (K : List T) (v : T)
    (h : bucket_index H nb v ≠ (K.length + SIZE_WIDTH - 1) % SIZE_WIDTH)
    (hb : bucket_index H nb v + 1 = nb) :
    bucket_end (built_set H nb K) v = none := by
  unfold bucket_end built_set
  simp only []
  rw [if_neg h, offset_table_getElem?_none nb _ _ (by omega)]

/-- On a built set, a scan that ends at or after the end of the probe's own bucket, and
inside the table, answers membership in the key array. -/
theorem contains_built {T : Type} [DecidableEq T] (H : T → Nat) (nb : Nat) (K : List T)
    (hnb : 0 < nb) (v : T) (e : Nat) (he : bucket_end (built_set H nb K) v = some e)
    (h1 : bucket_offset (make_bucket_index_table H nb K) (bucket_index H nb v + 1) ≤ e)
    (h2 : e ≤ K.length) :
    contains (built_set H nb K) v = some (decide (v ∈ K)) := by
  have hb : bucket_index H nb v < nb := Nat.mod_lt _ hnb
  have hmono := bucket_offset_mono (make_bucket_index_table H nb K)
    (Nat.le_add_right (bucket_index H nb v) 1)
  rw [contains_eq_bucket_end, he]
  have hoff : (built_set H nb K).m_bucket_offset_table[bucket_index
      (built_set H nb K).HashFunc (built_set H nb K).NumBuckets v]?
      = some (bucket_offset (make_bucket_index_table H nb K) (bucket_index H nb v)) :=
    offset_table_getElem? nb _ _ hb
  rw [hoff]
  simp only []
  obtain ⟨r, hr, hiff⟩ := scan_spec (built_set H nb K).m_hash_map v
    (e - bucket_offset (make_bucket_index_table H nb K) (bucket_index H nb v))
    (bucket_offset (make_bucket_index_table H nb K) (bucket_index H nb v))
    (by
      have : (built_set H nb K).m_hash_map.length = K.length := final_table_length H nb K
      omega)
  rw [hr]
  congr 1
  have hrK : r = true ↔ v ∈ K := by
    rw [hiff]
    constructor
    · rintro ⟨s, _, _, h3⟩
      exact (final_table_perm H nb K).subset (List.getElem?_mem h3)
    · intro hv
      obtain ⟨i, hi, hvi⟩ := List.getElem_of_mem hv
      have hi2 : i < (make_bucket_index_table H nb K).length := by
        rw [bucket_table_length]; exact hi
      have hbi : (make_bucket_index_table H nb K)[i] = bucket_index H nb v := by
        rw [bucket_table_getElem H nb K i hi hi2, hvi]
      have hge := slot_ge (make_bucket_index_table H nb K) i hi2
      have hlt := slot_lt_next (make_bucket_index_table H nb K) i hi2
      rw [hbi] at hge hlt
      refine ⟨slot (make_bucket_index_table H nb K) i, hge, by omega, ?_⟩
      show (final_table H nb K)[slot (make_bucket_index_table H nb K) i]? = some v
      rw [final_table_slot H nb K i hi, List.getElem?_eq_getElem hi, hvi]
  cases r <;> simp_all

/-! ## The offset table as a prefix sum -/

theorem bucket_offset_eq_sum (t : List Nat) (b : Nat) :
    bucket_offset t b = ((List.range b).map (fun c => t.count c)).sum := by
  induction b with
  | zero => simp [bucket_offset_zero]
  | succ b ih =>
    rw [bucket_offset_succ, ih, List.range_succ, List.map_append, List.sum_append]
    simp

theorem histogram_take (nb : Nat) (t : List Nat) (b : Nat) (hb : b ≤ nb) :
    (bucket_histogram nb t).take b = (List.range b).map (fun c => t.count c) := by
  unfold bucket_histogram
  rw [← List.map_take, List.take_range, Nat.min_eq_left hb]

theorem prefix_sum_eq_offset_table (nb : Nat) (t : List Nat) :
    exclusive_prefix_sum (bucket_histogram nb t) = make_bucket_offset_table nb t := by
  unfold exclusive_prefix_sum make_bucket_offset_table
  have hlen : (bucket_histogram nb t).length = nb := by simp [bucket_histogram]
  rw [hlen]
  apply List.map_congr_left
  intro b hb
  rw [histogram_take nb t b (Nat.le_of_lt (List.mem_range.mp hb)), bucket_offset_eq_sum]

/-- Buckets without keys do not move the offset. -/
theorem bucket_offset_skip_empty (t : List Nat) (b c : Nat) (hbc : b ≤ c)
    (h : ∀ x, b ≤ x → x < c → x ∉ t) : bucket_offset t c = bucket_offset t b := by
  rw [bucket_offset_eq, bucket_offset_eq]
  apply List.countP_congr
  intro x hx
  simp only [decide_eq_true_eq]
  constructor
  · intro hxc
    by_contra hxb
    exact h x (by omega) hxc hx
  · intro hxb
    omega

/-! ## The slot table and the search of `reverse_index` -/

theorem slot_table_getElem? (t : List Nat) (i : Nat) (hi : i < t.length) :
    ((List.range t.length).map (slot t))[i]? = some (slot t i) := by
  simp [List.getElem?_range hi]

theorem slot_table_getElem?_some (t : List Nat) (i x : Nat)
    (h : ((List.range t.length).map (slot t))[i]? = some x) :
    i < t.length ∧ slot t i = x := by
  obtain ⟨hi, hx⟩ := List.getElem?_eq_some_iff.mp h
  have hi2 : i < t.length := by simpa using hi
  refine ⟨hi2, ?_⟩
  rw [slot_table_getElem? t i hi2] at h
  injection h

theorem reverse_index_from_eq_search (l : List Nat) (s k : Nat) :
    reverse_index_from l s k = (reverse_index_search l s k).getD 0 := by
  induction l generalizing k with
  | nil => rfl
  | cons a rest ih =>
    unfold reverse_index_from reverse_index_search
    by_cases h : a = s
    · rw [if_pos h, if_pos h]; rfl
    · rw [if_neg h, if_neg h]; exact ih (k + 1)

theorem reverse_index_search_nodup (l : List Nat) (hl : l.Nodup) (s k p : Nat)
    (hp : p < l.length) (h : l[p] = s) : reverse_index_search l s k = some (k + p) := by
  induction l generalizing k p with
  | nil => simp at hp
  | cons a rest ih =>
    cases p with
    | zero =>
      simp only [List.getElem_cons_zero] at h
      simp [reverse_index_search, h]
    | succ q =>
      simp only [List.getElem_cons_succ] at h
      have hq : q < rest.length := by simpa using hp
      have hmem : s ∈ rest := h ▸ List.getElem_mem hq
      have hne : ¬ a = s := by
        intro hEq
        subst hEq
        exact (List.nodup_cons.mp hl).1 hmem
      simp only [reverse_index_search, hne, if_false]
      rw [ih (List.nodup_cons.mp hl).2 (k + 1) q hq h]
      congr 1
      omega

theorem reverse_index_search_slot (t : List Nat) (i : Nat) (hi : i < t.length) :
    reverse_index_search ((List.range t.length).map (slot t)) (slot t i) 0 = some i := by
  rw [reverse_index_search_nodup _ (slot_table_nodup t) (slot t i) 0 i (by simpa using hi)
    (by simp)]
  congr 1
  omega

theorem reverse_table_getElem? (t : List Nat) (i : Nat) (hi : i < t.length) :
    (make_reverse_index_table ((List.range t.length).map (slot t)))[slot t i]? = some i := by
  have hs := slot_lt_length t i hi
  unfold make_reverse_index_table
  simp only [List.length_map, List.length_range]
  rw [List.getElem?_map, List.getElem?_range hs]
  simp only [Option.map_some']
  rw [reverse_index_slot t i hi]

/-! ## The final table as a stable bucket sort -/

theorem filter_getElem?_rank {T : Type} (p : T → Bool) (K : List T) (i : Nat)
    (hi : i < K.length) (hp : p K[i] = true) :
    (K.filter p)[(K.take i).countP p]? = some K[i] := by
  have hdrop : K.drop i = K[i] :: K.drop (i + 1) := by
    rw [List.getElem_cons_drop]
  have hsplit : K.filter p = (K.take i).filter p ++ K[i] :: (K.drop (i + 1)).filter p := by
    conv_lhs => rw [← List.take_append_drop i K]
    rw [List.filter_append, hdrop, List.filter_cons_of_pos hp]
  rw [hsplit, List.countP_eq_length_filter,
    List.getElem?_append_right (Nat.le_refl _), Nat.sub_self]
  exact List.getElem?_cons_zero

theorem length_flatMap_range {T : Type} (f : Nat → List T) (n : Nat) :
    ((List.range n).flatMap f).length = ((List.range n).map (fun c => (f c).length)).sum := by
  induction n with
  | zero => rfl
  | succ n ih =>
    rw [List.range_succ, List.flatMap_append, List.length_append, ih, List.map_append,
      List.sum_append]
    simp

theorem flatMap_range_getElem? {T : Type} (f : Nat → List T) (n b r : Nat) (hb : b < n)
    (x : T) (hr : (f b)[r]? = some x) :
    ((List.range n).flatMap f)[((List.range b).map (fun c => (f c).length)).sum + r]?
      = some x := by
  induction n with
  | zero => omega
  | succ n ih =>
    rw [List.range_succ, List.flatMap_append]
    by_cases hbn : b < n
    · have h1 := ih hbn
      obtain ⟨hlt, _⟩ := List.getElem?_eq_some_iff.mp h1
      rw [List.getElem?_append_left hlt]
      exact h1
    · have hbn2 : b = n := by omega
      subst hbn2
      rw [List.getElem?_append_right (by rw [length_flatMap_range]; omega),
        length_flatMap_range, Nat.add_sub_cancel_left]
      simpa using hr

theorem filter_bucket_length {T : Type} (H : T → Nat) (nb : Nat) (K : List T) (c : Nat) :
    (K.filter (fun k => decide (bucket_index H nb k = c))).length
      = (make_bucket_index_table H nb K).count c := by
  rw [← List.countP_eq_length_filter, make_bucket_index_table, List.count, List.countP_map]
  apply List.countP_congr
  intro x _
  simp

theorem bucket_runs_length {T : Type} (H : T → Nat) (nb : Nat) (K : List T) (b : Nat) :
    ((List.range b).map (fun c =>
        (K.filter (fun k => decide (bucket_index H nb k = c))).length)).sum
      = bucket_offset (make_bucket_index_table H nb K) b := by
  rw [bucket_offset_eq_sum]
  congr 1
  apply List.map_congr_left
  intro c _
  exact filter_bucket_length H nb K c

theorem rank_eq_countP {T : Type} (H : T → Nat) (nb : Nat) (K : List T) (i b : Nat) :
    ((make_bucket_index_table H nb K).take i).count b
      = (K.take i).countP (fun k => decide (bucket_index H nb k = b)) := by
  rw [make_bucket_index_table, ← List.map_take, List.count, List.countP_map]
  apply List.countP_congr
  intro x _
  simp

theorem stable_bucket_sort_length {T : Type} (H : T → Nat) (nb : Nat) (K : List T)
    (hnb : 0 < nb) : (stable_bucket_sort H nb K).length = K.length := by
  unfold stable_bucket_sort
  rw [length_flatMap_range, bucket_runs_length, bucket_offset_last H nb K hnb]

theorem stable_bucket_sort_slot {T : Type} (H : T → Nat) (nb : Nat) (K : List T)
    (hnb : 0 < nb) (i : Nat) (hi : i < K.length) :
    (stable_bucket_sort H nb K)[slot (make_bucket_index_table H nb K) i]? = K[i]? := by
  have hi2 : i < (make_bucket_index_table H nb K).length := by
    rw [bucket_table_length]; exact hi
  have hbi := bucket_table_getElem H nb K i hi hi2
  have hb : bucket_index H nb K[i] < nb := Nat.mod_lt _ hnb
  rw [slot_eq _ i hi2, hbi, rank_eq_countP, ← bucket_runs_length, List.getElem?_eq_getElem hi]
  unfold stable_bucket_sort
  apply flatMap_range_getElem? _ nb (bucket_index H nb K[i]) _ hb
  exact filter_getElem?_rank _ K i hi (by simp)

/-- The table built by the construction is the stable bucket sort of the keys. -/
theorem final_table_eq_stable_bucket_sort {T : Type} (H : T → Nat) (nb : Nat) (K : List T)
    (hnb : 0 < nb) : final_table H nb K = stable_bucket_sort H nb K := by
  apply List.ext_getElem?
  intro n
  by_cases hn : n < K.length
  · obtain ⟨i, hi, his⟩ := slot_surj (make_bucket_index_table H nb K) n
      (by rw [bucket_table_length]; exact hn)
    rw [bucket_table_length] at hi
    rw [← his, final_table_slot H nb K i hi, stable_bucket_sort_slot H nb K hnb i hi]
  · rw [List.getElem?_eq_none (by rw [final_table_length]; omega),
      List.getElem?_eq_none (by rw [stable_bucket_sort_length H nb K hnb]; omega)]

/-! ## The claims -/

/-- C1 (completeness of membership) fails on the code: in the set of `main`
(5 keys, 3 buckets) the key 23 lies in the last bucket 2, which is not `N-1 = 4`, so
`contains(23)` subscripts `m_bucket_offset_table[3]` outside the 3-entry table instead of
returning `true`. -/
theorem C1_key_of_last_bucket_not_found :
    ∃ s, make_constexpr_hash_set main_num_buckets int_hash main_values = .ok s ∧
      23 ∈ main_values ∧ bucket_index int_hash main_num_buckets 23 = main_num_buckets - 1 ∧
      contains s 23 = none ∧ contains s 23 ≠ some true :=
  ⟨_, make_constexpr_hash_set_ok 3 int_hash main_values (by decide),
    by decide, by decide, by decide, by decide⟩

/-- C2 (no false positives, stated as `contains(v) = false` for every non-member) fails
on the code: 11 is not a key of the set of `main`, and `contains(11)` reads
`m_bucket_offset_table[3]` out of range instead of returning `false`. -/
theorem C2_non_member_of_last_bucket_not_false :
    ∃ s, make_constexpr_hash_set main_num_buckets int_hash main_values = .ok s ∧
      11 ∉ main_values ∧ contains s 11 = none ∧ contains s 11 ≠ some false :=
  ⟨_, make_constexpr_hash_set_ok 3 int_hash main_values (by decide),
    by decide, by decide, by decide⟩

/-- C3 (every index read by `contains` is in range) fails on the code: in the set of
`main` the probe 32 has bucket 2, the test `bucket == N-1` compares 2 with 4, and the
read `m_bucket_offset_table[bucket+1]` has `bucket+1 = NumBuckets`; no boolean results. -/
theorem C3_contains_reads_past_offset_table :
    ∃ s, make_constexpr_hash_set main_num_buckets int_hash main_values = .ok s ∧
      s.m_bucket_offset_table.length = s.NumBuckets ∧
      bucket_index s.HashFunc s.NumBuckets 32 ≠ (s.N + SIZE_WIDTH - 1) % SIZE_WIDTH ∧
      bucket_index s.HashFunc s.NumBuckets 32 + 1 = s.NumBuckets ∧
      s.m_bucket_offset_table[bucket_index s.HashFunc s.NumBuckets 32 + 1]? = none ∧
      contains s 32 = none :=
  ⟨_, make_constexpr_hash_set_ok 3 int_hash main_values (by decide),
    by decide, by decide, by decide, by decide, by decide⟩

/-- C4: construction fails the configuration check exactly when `NumBuckets <= 2`
(the error is the configuration error, never an error of a table), and for
`NumBuckets > 2` it yields a set; in particular 2 buckets are rejected and 3 buckets
are accepted for the same keys. -/
theorem C4_rejected_iff_at_most_two_buckets {T : Type} (NumBuckets : Nat) (H : T → Nat)
    (K : List T) :
    (make_constexpr_hash_set NumBuckets H K = .error .invalidConfiguration ↔ NumBuckets ≤ 2) ∧
    ((∃ s, make_constexpr_hash_set NumBuckets H K = .ok s) ↔ 2 < NumBuckets) ∧
    make_constexpr_hash_set 2 H K = .error .invalidConfiguration ∧
    make_constexpr_hash_set 1 H K = .error .invalidConfiguration ∧
    make_constexpr_hash_set 0 H K = .error .invalidConfiguration ∧
    (∃ s, make_constexpr_hash_set 3 H K = .ok s) := by
  have hbad : ∀ nb, nb ≤ 2 → make_constexpr_hash_set nb H K = .error .invalidConfiguration := by
    intro nb h
    unfold make_constexpr_hash_set
    rw [if_neg (by omega)]
  refine ⟨⟨?_, hbad NumBuckets⟩, ⟨?_, ?_⟩, hbad 2 (by omega), hbad 1 (by omega),
    hbad 0 (by omega), ⟨_, make_constexpr_hash_set_ok 3 H K (by omega)⟩⟩
  · intro h
    by_contra hc
    rw [make_constexpr_hash_set_ok NumBuckets H K (by omega)] at h
    cases h
  · rintro ⟨s, hs⟩
    by_contra hc
    rw [hbad NumBuckets (by omega)] at hs
    cases hs
  · intro h
    exact ⟨_, make_constexpr_hash_set_ok NumBuckets H K h⟩

/-- C5: for `NumBuckets > 2` the slot table and the final table are produced, the final
table `m_hash_map` is the value of `make_hash_set(K, make_reverse_index_table(slot table))`,
it has length `N`, and every value occurs in it exactly as often as in `K`. -/
theorem C5_final_table_is_permutation {T : Type} [DecidableEq T] (NumBuckets : Nat)
    (H : T → Nat) (K : List T) (hnb : 2 < NumBuckets) :
    ∃ actual_index_table s,
      make_actual_index_table (make_bucket_index_table H NumBuckets K)
        (make_bucket_offset_table NumBuckets (make_bucket_index_table H NumBuckets K))
        = some actual_index_table ∧
      make_hash_set K (make_reverse_index_table actual_index_table) = some s.m_hash_map ∧
      make_constexpr_hash_set NumBuckets H K = .ok s ∧
      s.m_hash_map.length = K.length ∧
      s.m_hash_map.Perm K ∧
      ∀ v, s.m_hash_map.count v = K.count v := by
  refine ⟨_, _, make_actual_index_table_eq NumBuckets _
    (bucket_table_lt H NumBuckets (by omega) K), ?_,
    make_constexpr_hash_set_ok NumBuckets H K hnb, final_table_length H NumBuckets K,
    final_table_perm H NumBuckets K, fun v => (final_table_perm H NumBuckets K).count_eq v⟩
  rw [bucket_table_length]
  exact make_hash_set_final H NumBuckets K

/-- Instance of C5 on the keys of `main` with 3 buckets. -/
theorem C5_final_table_is_permutation_witness :
    2 < 3 ∧ ∃ actual_index_table s,
      make_actual_index_table (make_bucket_index_table int_hash 3 main_values)
        (make_bucket_offset_table 3 (make_bucket_index_table int_hash 3 main_values))
        = some actual_index_table ∧
      make_hash_set main_values (make_reverse_index_table actual_index_table)
        = some s.m_hash_map ∧
      make_constexpr_hash_set 3 int_hash main_values = .ok s ∧
      s.m_hash_map.length = main_values.length ∧
      s.m_hash_map.Perm main_values ∧
      ∀ v, s.m_hash_map.count v = main_values.count v :=
  ⟨by decide, C5_final_table_is_permutation 3 int_hash main_values (by decide)⟩

/-- C6: in the set built with `NumBuckets > 2`, for every bucket `b < NumBuckets` and
every slot `s < N`, the key stored at slot `s` has bucket id `b` if and only if
`offset[b] <= s < end(b)`, where `end(b)` is `offset[b+1]` below the last bucket and `N`
for the last bucket. -/
theorem C6_final_table_grouped_by_bucket {T : Type} (NumBuckets : Nat) (H : T → Nat)
    (K : List T) (hnb : 2 < NumBuckets) :
    ∃ st, make_constexpr_hash_set NumBuckets H K = .ok st ∧
      ∀ b, b < NumBuckets → ∀ s, s < K.length →
        ∃ x start stop, st.m_hash_map[s]? = some x ∧
          st.m_bucket_offset_table[b]? = some start ∧
          (if b + 1 < NumBuckets then st.m_bucket_offset_table[b + 1]? = some stop
            else stop = K.length) ∧
          (bucket_index H NumBuckets x = b ↔ start ≤ s ∧ s < stop) := by
  refine ⟨_, make_constexpr_hash_set_ok NumBuckets H K hnb, ?_⟩
  intro b hb s hs
  have hlen := bucket_table_length H NumBuckets K
  obtain ⟨i, hi, his⟩ := slot_surj (make_bucket_index_table H NumBuckets K) s (by omega)
  have hiK : i < K.length := by omega
  refine ⟨K[i], bucket_offset (make_bucket_index_table H NumBuckets K) b,
    bucket_offset (make_bucket_index_table H NumBuckets K) (b + 1), ?_, ?_, ?_, ?_⟩
  · rw [← his, final_table_slot H NumBuckets K i hiK]
    exact List.getElem?_eq_getElem hiK
  · exact offset_table_getElem? NumBuckets _ b hb
  · by_cases h : b + 1 < NumBuckets
    · rw [if_pos h]
      exact offset_table_getElem? NumBuckets _ (b + 1) h
    · rw [if_neg h]
      have hb1 : b + 1 = NumBuckets := by omega
      rw [hb1]
      exact bucket_offset_last H NumBuckets K (by omega)
  · rw [← bucket_table_getElem H NumBuckets K i hiK hi, ← his]
    constructor
    · intro h
      have h1 := slot_ge (make_bucket_index_table H NumBuckets K) i hi
      have h2 := slot_lt_next (make_bucket_index_table H NumBuckets K) i hi
      rw [h] at h1 h2
      exact ⟨h1, h2⟩
    · rintro ⟨h1, h2⟩
      exact slot_bucket _ i b hi h1 h2

/-- Instance of C6 on the keys of `main` with 3 buckets, at bucket 2 and slot 3. -/
theorem C6_final_table_grouped_by_bucket_witness :
    2 < 3 ∧ ∃ st, make_constexpr_hash_set 3 int_hash main_values = .ok st ∧
      ∃ x start stop, st.m_hash_map[3]? = some x ∧
        st.m_bucket_offset_table[2]? = some start ∧
        (if 2 + 1 < 3 then st.m_bucket_offset_table[2 + 1]? = some stop
          else stop = main_values.length) ∧
        (bucket_index int_hash 3 x = 2 ↔ start ≤ 3 ∧ 3 < stop) :=
  ⟨by decide, by
    obtain ⟨st, h1, h2⟩ :=
      C6_final_table_grouped_by_bucket 3 int_hash main_values (by decide)
    exact ⟨st, h1, h2 2 (by decide) 3 (by decide)⟩⟩

/-- C7: for `NumBuckets > 2` and original indices `i < j < N` of equal bucket id, the
slot table gives `slot[i] < slot[j]`, and the final table holds `K[i]` at `slot[i]` and
`K[j]` at `slot[j]`. -/
theorem C7_stable_within_bucket {T : Type} (NumBuckets : Nat) (H : T → Nat) (K : List T)
    (hnb : 2 < NumBuckets) :
    ∃ actual_index_table st,
      make_actual_index_table (make_bucket_index_table H NumBuckets K)
        (make_bucket_offset_table NumBuckets (make_bucket_index_table H NumBuckets K))
        = some actual_index_table ∧
      make_constexpr_hash_set NumBuckets H K = .ok st ∧
      ∀ (i j : Nat) ki kj, i < j → K[i]? = some ki → K[j]? = some kj →
        bucket_index H NumBuckets ki = bucket_index H NumBuckets kj →
        ∃ si sj : Nat, actual_index_table[i]? = some si ∧ actual_index_table[j]? = some sj ∧
          si < sj ∧ st.m_hash_map[si]? = some ki ∧ st.m_hash_map[sj]? = some kj := by
  refine ⟨_, _, make_actual_index_table_eq NumBuckets _
    (bucket_table_lt H NumBuckets (by omega) K),
    make_constexpr_hash_set_ok NumBuckets H K hnb, ?_⟩
  intro i j ki kj hij hki hkj hb
  obtain ⟨hi, hki2⟩ := List.getElem?_eq_some_iff.mp hki
  obtain ⟨hj, hkj2⟩ := List.getElem?_eq_some_iff.mp hkj
  have hlen := bucket_table_length H NumBuckets K
  have hi2 : i < (make_bucket_index_table H NumBuckets K).length := by omega
  have hj2 : j < (make_bucket_index_table H NumBuckets K).length := by omega
  refine ⟨slot (make_bucket_index_table H NumBuckets K) i,
    slot (make_bucket_index_table H NumBuckets K) j, ?_, ?_, ?_, ?_, ?_⟩
  · simp [List.getElem?_range hi2]
  · simp [List.getElem?_range hj2]
  · apply slot_lt_of_lt _ i j hij hj2
    rw [bucket_table_getElem H NumBuckets K i hi hi2,
      bucket_table_getElem H NumBuckets K j hj hj2, hki2, hkj2]
    exact hb
  · rw [final_table_slot H NumBuckets K i hi]
    exact hki
  · rw [final_table_slot H NumBuckets K j hj]
    exact hkj

/-- Instance of C7 on the keys of `main` with 3 buckets, at the indices 1 and 3 (the
keys 23 and 32 of bucket 2). -/
theorem C7_stable_within_bucket_witness :
    2 < 3 ∧ ∃ actual_index_table st,
      make_actual_index_table (make_bucket_index_table int_hash 3 main_values)
        (make_bucket_offset_table 3 (make_bucket_index_table int_hash 3 main_values))
        = some actual_index_table ∧
      make_constexpr_hash_set 3 int_hash main_values = .ok st ∧
      ∃ si sj : Nat, actual_index_table[1]? = some si ∧ actual_index_table[3]? = some sj ∧
        si < sj ∧ st.m_hash_map[si]? = some 23 ∧ st.m_hash_map[sj]? = some 32 :=
  ⟨by decide, by
    obtain ⟨ait, st, h1, h2, h3⟩ := C7_stable_within_bucket 3 int_hash main_values (by decide)
    exact ⟨ait, st, h1, h2, h3 1 3 23 32 (by decide) (by decide) (by decide) (by decide)⟩⟩

/-- C8 fails on the code in its second half: in the set of `main`, `contains(10)` is
`true`, but `contains(11)` (bucket 2, the last one, while `N-1 = 4`) reads
`m_bucket_offset_table[3]` out of range instead of returning `false`. -/
theorem C8_main_contains_10_and_11 :
    ∃ s, make_constexpr_hash_set main_num_buckets int_hash main_values = .ok s ∧
      s.m_bucket_offset_table = [0, 1, 3] ∧ s.m_hash_map = [33, 532, 10, 23, 32] ∧
      contains s 10 = some true ∧
      bucket_index int_hash main_num_buckets 11 = 2 ∧
      s.m_bucket_offset_table[2 + 1]? = none ∧
      contains s 11 = none :=
  ⟨_, make_constexpr_hash_set_ok 3 int_hash main_values (by decide),
    by decide, by decide, by decide, by decide, by decide, by decide⟩

/-- C9 as stated is false: the bucket ids of the keys of `main` for 3 buckets and
`int_hash` are not `{0, 2, 2, 2, 1}`. -/
theorem C9_bucket_ids_not_as_stated :
    make_bucket_index_table int_hash main_num_buckets main_values ≠ [0, 2, 2, 2, 1] := by
  decide

/-- C9 amended: for the keys `{33, 23, 532, 32, 10}` with 3 buckets and `int_hash`,
`make_bucket_index_table` returns `{0, 2, 1, 2, 1}` (532 mod 3 is 1 and 10 mod 3 is 1). -/
theorem C9_bucket_ids_of_main :
    make_bucket_index_table int_hash main_num_buckets main_values = [0, 2, 1, 2, 1] := by
  decide

/-- C10: for every bucket-index table `t` and every `NumBuckets >= 1`, the offset table
has `NumBuckets` entries, is non-decreasing from each entry to the next, starts with
`offset[0] = 0`, and its last entry `offset[NumBuckets-1]` is at most the length of `t`. -/
theorem C10_offset_table_invariant (NumBuckets : Nat) (t : List Nat) (hnb : 1 ≤ NumBuckets) :
    (make_bucket_offset_table NumBuckets t).length = NumBuckets ∧
    (∀ b, b + 1 < NumBuckets → ∃ x y, (make_bucket_offset_table NumBuckets t)[b]? = some x ∧
      (make_bucket_offset_table NumBuckets t)[b + 1]? = some y ∧ x ≤ y) ∧
    (make_bucket_offset_table NumBuckets t)[0]? = some 0 ∧
    (∃ z, (make_bucket_offset_table NumBuckets t)[NumBuckets - 1]? = some z ∧ z ≤ t.length) := by
  refine ⟨offset_table_length _ _, ?_, ?_, ?_⟩
  · intro b hb
    exact ⟨_, _, offset_table_getElem? NumBuckets t b (by omega),
      offset_table_getElem? NumBuckets t (b + 1) hb, bucket_offset_mono t (by omega)⟩
  · rw [offset_table_getElem? NumBuckets t 0 (by omega), bucket_offset_zero]
  · exact ⟨_, offset_table_getElem? NumBuckets t (NumBuckets - 1) (by omega),
      bucket_offset_le_length t _⟩

/-- Instance of C10 on the bucket ids `{0, 2, 1, 2, 1}` of `main` with 3 buckets. -/
theorem C10_offset_table_invariant_witness :
    1 ≤ 3 ∧
    (make_bucket_offset_table 3 [0, 2, 1, 2, 1]).length = 3 ∧
    (∀ b, b + 1 < 3 → ∃ x y, (make_bucket_offset_table 3 [0, 2, 1, 2, 1])[b]? = some x ∧
      (make_bucket_offset_table 3 [0, 2, 1, 2, 1])[b + 1]? = some y ∧ x ≤ y) ∧
    (make_bucket_offset_table 3 [0, 2, 1, 2, 1])[0]? = some 0 ∧
    (∃ z, (make_bucket_offset_table 3 [0, 2, 1, 2, 1])[3 - 1]? = some z ∧
      z ≤ [0, 2, 1, 2, 1].length) :=
  ⟨by decide, C10_offset_table_invariant 3 [0, 2, 1, 2, 1] (by decide)⟩

/-- C11: for a bucket-index table `t` of length `N` with all entries below `NumBuckets`
and its offset table, `make_actual_index_table` produces a slot table of length `N` with
`slot[i] < N` for every `i`, `slot[i] != slot[j]` for `i != j`, and every value of
`[0, N)` equal to `slot[i]` for exactly one `i`. -/
theorem C11_slot_table_is_bijection (NumBuckets : Nat) (t : List Nat)
    (ht : ∀ x ∈ t, x < NumBuckets) :
    ∃ slot_table, make_actual_index_table t (make_bucket_offset_table NumBuckets t)
        = some slot_table ∧
      slot_table.length = t.length ∧
      (∀ (i x : Nat), slot_table[i]? = some x → x < t.length) ∧
      (∀ (i j x y : Nat), i ≠ j → slot_table[i]? = some x → slot_table[j]? = some y → x ≠ y) ∧
      (∀ s, s < t.length → ∃! i : Nat, slot_table[i]? = some s) := by
  refine ⟨_, make_actual_index_table_eq NumBuckets t ht, by simp, ?_, ?_, ?_⟩
  · intro i x hx
    obtain ⟨hi, hxi⟩ := slot_table_getElem?_some t i x hx
    rw [← hxi]
    exact slot_lt_length t i hi
  · intro i j x y hij hx hy hxy
    obtain ⟨hi, hxi⟩ := slot_table_getElem?_some t i x hx
    obtain ⟨hj, hyj⟩ := slot_table_getElem?_some t j y hy
    exact hij (slot_inj t i j hi hj (by rw [hxi, hyj, hxy]))
  · intro s hs
    obtain ⟨i, hi, his⟩ := slot_surj t s hs
    refine ⟨i, ?_, ?_⟩
    · show ((List.range t.length).map (slot t))[i]? = some s
      rw [slot_table_getElem? t i hi, his]
    · intro j hj
      obtain ⟨hj2, hjs⟩ := slot_table_getElem?_some t j s hj
      exact slot_inj t j i hj2 hi (by rw [hjs, his])

/-- Instance of C11 on the bucket ids `{0, 2, 1, 2, 1}` of `main` with 3 buckets. -/
theorem C11_slot_table_is_bijection_witness :
    (∀ x ∈ [0, 2, 1, 2, 1], x < 3) ∧
    ∃ slot_table, make_actual_index_table [0, 2, 1, 2, 1]
        (make_bucket_offset_table 3 [0, 2, 1, 2, 1]) = some slot_table ∧
      slot_table.length = [0, 2, 1, 2, 1].length ∧
      (∀ (i x : Nat), slot_table[i]? = some x → x < [0, 2, 1, 2, 1].length) ∧
      (∀ (i j x y : Nat), i ≠ j → slot_table[i]? = some x → slot_table[j]? = some y → x ≠ y) ∧
      (∀ s, s < [0, 2, 1, 2, 1].length → ∃! i : Nat, slot_table[i]? = some s) :=
  ⟨by decide, C11_slot_table_is_bijection 3 [0, 2, 1, 2, 1] (by decide)⟩

/-- C12: for `NumBuckets > 2`, the slot table of the construction (`make_actual_index_table`
on the bucket-index table of `K` and its offset table) is produced, and its reverse table
satisfies `reverse[slot[i]] = i` for every original index `i < N`. -/
theorem C12_reverse_of_slot {T : Type} (NumBuckets : Nat) (H : T → Nat) (K : List T)
    (hnb : 2 < NumBuckets) :
    ∃ slot_table,
      make_actual_index_table (make_bucket_index_table H NumBuckets K)
        (make_bucket_offset_table NumBuckets (make_bucket_index_table H NumBuckets K))
        = some slot_table ∧
      ∀ i, i < K.length → ∃ si, slot_table[i]? = some si ∧
        (make_reverse_index_table slot_table)[si]? = some i := by
  refine ⟨_, make_actual_index_table_eq NumBuckets _
    (bucket_table_lt H NumBuckets (by omega) K), ?_⟩
  intro i hi
  have hi2 : i < (make_bucket_index_table H NumBuckets K).length := by
    rw [bucket_table_length]; exact hi
  exact ⟨_, slot_table_getElem? _ i hi2, reverse_table_getElem? _ i hi2⟩

/-- Instance of C12 on the keys of `main` with 3 buckets, at index 3. -/
theorem C12_reverse_of_slot_witness :
    2 < 3 ∧ ∃ slot_table,
      make_actual_index_table (make_bucket_index_table int_hash 3 main_values)
        (make_bucket_offset_table 3 (make_bucket_index_table int_hash 3 main_values))
        = some slot_table ∧
      ∃ si, slot_table[3]? = some si ∧ (make_reverse_index_table slot_table)[si]? = some 3 :=
  ⟨by decide, by
    obtain ⟨st, h1, h2⟩ := C12_reverse_of_slot 3 int_hash main_values (by decide)
    exact ⟨st, h1, h2 3 (by decide)⟩⟩

/-- C13 fails on the code: the test for the last bucket compares with `N-1`, not with
`NumBuckets-1`.  In the set of `main` (N = 5, 3 buckets) the probe 2 has the last bucket 2
and the end of its range is not `N` but the out-of-range read `m_bucket_offset_table[3]`;
in the set built from `{1, 2}` with 3 buckets the probe 1 has bucket `1 = N-1`, which is
not the last bucket, and the end of its range is `N = 2`, not `offset[2] = 1`. -/
theorem C13_last_bucket_test_uses_N :
    (∃ s, make_constexpr_hash_set main_num_buckets int_hash main_values = .ok s ∧
      bucket_index s.HashFunc s.NumBuckets 2 = s.NumBuckets - 1 ∧
      s.N = 5 ∧ bucket_end s 2 = none) ∧
    (∃ s, make_constexpr_hash_set 3 int_hash [1, 2] = .ok s ∧
      bucket_index s.HashFunc s.NumBuckets 1 ≠ s.NumBuckets - 1 ∧
      s.m_bucket_offset_table[bucket_index s.HashFunc s.NumBuckets 1 + 1]? = some 1 ∧
      s.N = 2 ∧ bucket_end s 1 = some 2) :=
  ⟨⟨_, make_constexpr_hash_set_ok 3 int_hash main_values (by decide),
      by decide, by decide, by decide⟩,
    ⟨_, make_constexpr_hash_set_ok 3 int_hash [1, 2] (by decide),
      by decide, by decide, by decide, by decide⟩⟩

/-- C14: for a key array `K` of length `N > 2` (`N` a `std::size_t`) built with
`NumBuckets = N`, every probe `v` satisfies: its bucket equals `N-1` exactly when it equals
`NumBuckets-1`; the reads of the offset table succeed, the scanned range ends inside the
table; and `contains(v)` returns `true` if and only if `v` is an element of `K`. -/
theorem C14_query_correct_when_buckets_equal_length {T : Type} [DecidableEq T] (H : T → Nat)
    (K : List T) (v : T) (hN : 2 < K.length) (hsize : K.length < SIZE_WIDTH) :
    ∃ s, make_constexpr_hash_set K.length H K = .ok s ∧
      (bucket_index s.HashFunc s.NumBuckets v = (s.N + SIZE_WIDTH - 1) % SIZE_WIDTH ↔
        bucket_index s.HashFunc s.NumBuckets v = s.NumBuckets - 1) ∧
      (∃ start stop, s.m_bucket_offset_table[bucket_index s.HashFunc s.NumBuckets v]?
          = some start ∧ bucket_end s v = some stop ∧ stop ≤ s.m_hash_map.length) ∧
      contains s v = some (decide (v ∈ K)) := by
  have hlast : (K.length + SIZE_WIDTH - 1) % SIZE_WIDTH = K.length - 1 := by
    have h1 : K.length + SIZE_WIDTH - 1 = (K.length - 1) + SIZE_WIDTH := by omega
    rw [h1, Nat.add_mod_right, Nat.mod_eq_of_lt (by omega)]
  have hb : bucket_index H K.length v < K.length := Nat.mod_lt _ (by omega)
  have hlen : (final_table H K.length K).length = K.length := final_table_length H K.length K
  have hend : ∃ stop, bucket_end (built_set H K.length K) v = some stop ∧ stop ≤ K.length ∧
      bucket_offset (make_bucket_index_table H K.length K) (bucket_index H K.length v + 1)
        ≤ stop := by
    by_cases h : bucket_index H K.length v = (K.length + SIZE_WIDTH - 1) % SIZE_WIDTH
    · refine ⟨_, bucket_end_built_last H K.length K v h, Nat.le_refl _, ?_⟩
      have := bucket_offset_le_length (make_bucket_index_table H K.length K)
        (bucket_index H K.length v + 1)
      rwa [bucket_table_length] at this
    · refine ⟨_, bucket_end_built_next H K.length K v h (by omega), ?_, Nat.le_refl _⟩
      have := bucket_offset_le_length (make_bucket_index_table H K.length K)
        (bucket_index H K.length v + 1)
      rwa [bucket_table_length] at this
  obtain ⟨stop, hstop, hle, hge⟩ := hend
  refine ⟨_, make_constexpr_hash_set_built K.length H K hN, ?_, ?_, ?_⟩
  · show bucket_index H K.length v = (K.length + SIZE_WIDTH - 1) % SIZE_WIDTH ↔
      bucket_index H K.length v = K.length - 1
    rw [hlast]
  · exact ⟨_, stop, offset_table_getElem? K.length _ _ hb, hstop, by
      show stop ≤ (final_table H K.length K).length
      omega⟩
  · exact contains_built H K.length K (by omega) v stop hstop hge hle

/-- Instance of C14 on three keys with 3 buckets and the probe 23. -/
theorem C14_query_correct_when_buckets_equal_length_witness :
    2 < ([33, 23, 532] : List Int).length ∧ ([33, 23, 532] : List Int).length < SIZE_WIDTH ∧
    ∃ s, make_constexpr_hash_set ([33, 23, 532] : List Int).length int_hash [33, 23, 532]
        = .ok s ∧
      (bucket_index s.HashFunc s.NumBuckets 23 = (s.N + SIZE_WIDTH - 1) % SIZE_WIDTH ↔
        bucket_index s.HashFunc s.NumBuckets 23 = s.NumBuckets - 1) ∧
      (∃ start stop, s.m_bucket_offset_table[bucket_index s.HashFunc s.NumBuckets 23]?
          = some start ∧ bucket_end s 23 = some stop ∧ stop ≤ s.m_hash_map.length) ∧
      contains s 23 = some (decide ((23 : Int) ∈ ([33, 23, 532] : List Int))) :=
  ⟨by decide, by decide,
    C14_query_correct_when_buckets_equal_length int_hash [33, 23, 532] 23
      (by decide) (by decide)⟩

/-- C15: the offset table computed by counting equals the exclusive prefix sum of the
bucket histogram, entry by entry: for every `b < NumBuckets`, `offset[b]` is the sum over
`c < b` of the number of entries of `t` equal to `c`.  The equality also holds for tables
with entries outside `[0, NumBuckets)`. -/
theorem C15_offset_table_is_prefix_sum (NumBuckets : Nat) (t : List Nat) :
    make_bucket_offset_table NumBuckets t = exclusive_prefix_sum (bucket_histogram NumBuckets t) ∧
    ∀ b, b < NumBuckets →
      (make_bucket_offset_table NumBuckets t)[b]?
        = some (Finset.sum (Finset.range b) (fun c => t.count c)) ∧
      (make_bucket_offset_table NumBuckets t)[b]?
        = some (t.countP (fun x => decide (x < b))) := by
  refine ⟨(prefix_sum_eq_offset_table NumBuckets t).symm, ?_⟩
  intro b hb
  rw [offset_table_getElem? NumBuckets t b hb]
  refine ⟨?_, by rw [bucket_offset_eq]⟩
  congr 1
  rw [bucket_offset_eq_sum]
  induction b with
  | zero => simp
  | succ b ih =>
    rw [List.range_succ, List.map_append, List.sum_append, Finset.sum_range_succ,
      ih (by omega)]
    simp

/-- Instance of C15 on the bucket ids `{0, 2, 1, 2, 1}` of `main`, at bucket 2. -/
theorem C15_offset_table_is_prefix_sum_witness :
    2 < 3 ∧
    (make_bucket_offset_table 3 [0, 2, 1, 2, 1])[2]?
        = some (Finset.sum (Finset.range 2) (fun c => [0, 2, 1, 2, 1].count c)) ∧
    (make_bucket_offset_table 3 [0, 2, 1, 2, 1])[2]?
        = some ([0, 2, 1, 2, 1].countP (fun x => decide (x < 2))) :=
  ⟨by decide, (C15_offset_table_is_prefix_sum 3 [0, 2, 1, 2, 1]).2 2 (by decide)⟩

/-- C16: if no key maps to the bucket `b < NumBuckets`, then `offset[b] = offset[b+1]`
whenever `b+1 < NumBuckets`, and `offset[b] = offset[b']` for the smallest bucket id
`b' > b` that some key maps to. -/
theorem C16_empty_bucket_shares_offset (NumBuckets : Nat) (t : List Nat) (b : Nat)
    (hb : b < NumBuckets) (hempty : b ∉ t) :
    (b + 1 < NumBuckets → ∃ x, (make_bucket_offset_table NumBuckets t)[b]? = some x ∧
      (make_bucket_offset_table NumBuckets t)[b + 1]? = some x) ∧
    (∀ b', b < b' → b' < NumBuckets → b' ∈ t → (∀ c, b < c → c < b' → c ∉ t) →
      ∃ x, (make_bucket_offset_table NumBuckets t)[b]? = some x ∧
        (make_bucket_offset_table NumBuckets t)[b']? = some x) := by
  constructor
  · intro hb1
    refine ⟨_, offset_table_getElem? NumBuckets t b hb, ?_⟩
    rw [offset_table_getElem? NumBuckets t (b + 1) hb1]
    congr 1
    apply bucket_offset_skip_empty t b (b + 1) (by omega)
    intro x h1 h2
    have : x = b := by omega
    rw [this]
    exact hempty
  · intro b' hlt hb' _ hmin
    refine ⟨_, offset_table_getElem? NumBuckets t b hb, ?_⟩
    rw [offset_table_getElem? NumBuckets t b' hb']
    congr 1
    apply bucket_offset_skip_empty t b b' (by omega)
    intro x h1 h2
    by_cases hx : x = b
    · rw [hx]; exact hempty
    · exact hmin x (by omega) h2

/-- Instance of C16 on the bucket ids `{0, 3, 3, 0}` with 5 buckets: the empty bucket 1
has the offset of bucket 2 and of bucket 3, the next bucket with a key. -/
theorem C16_empty_bucket_shares_offset_witness :
    1 < 5 ∧ 1 ∉ [0, 3, 3, 0] ∧
    (∃ x, (make_bucket_offset_table 5 [0, 3, 3, 0])[1]? = some x ∧
      (make_bucket_offset_table 5 [0, 3, 3, 0])[1 + 1]? = some x) ∧
    (∃ x, (make_bucket_offset_table 5 [0, 3, 3, 0])[1]? = some x ∧
      (make_bucket_offset_table 5 [0, 3, 3, 0])[3]? = some x) :=
  ⟨by decide, by decide,
    (C16_empty_bucket_shares_offset 5 [0, 3, 3, 0] 1 (by decide) (by decide)).1 (by decide),
    (C16_empty_bucket_shares_offset 5 [0, 3, 3, 0] 1 (by decide) (by decide)).2 3
      (by decide) (by decide) (by decide) (by
        intro c h1 h2
        have hc : c = 2 := by omega
        subst hc
        decide)⟩

/-- C17: for every key array `K` (duplicates allowed), `NumBuckets > 2`, hash `H` and
probe `v` whose bucket is not `NumBuckets-1`: the reads of the offset table succeed, the
scanned range ends inside `m_hash_map`, and `contains(v)` returns `true` if and only if
`v` is an element of `K`; when the bucket equals `N-1` the scan runs from `offset[bucket]`
to `N`, and otherwise to `offset[bucket+1]`. -/
theorem C17_query_correct_outside_last_bucket {T : Type} [DecidableEq T] (NumBuckets : Nat)
    (H : T → Nat) (K : List T) (v : T) (hnb : 2 < NumBuckets)
    (hv : bucket_index H NumBuckets v ≠ NumBuckets - 1) :
    ∃ s, make_constexpr_hash_set NumBuckets H K = .ok s ∧
      (∃ start stop, s.m_bucket_offset_table[bucket_index H NumBuckets v]? = some start ∧
        bucket_end s v = some stop ∧ stop ≤ s.m_hash_map.length ∧
        (if bucket_index H NumBuckets v = (K.length + SIZE_WIDTH - 1) % SIZE_WIDTH
          then stop = K.length
          else s.m_bucket_offset_table[bucket_index H NumBuckets v + 1]? = some stop)) ∧
      contains s v = some (decide (v ∈ K)) := by
  have hb : bucket_index H NumBuckets v < NumBuckets := Nat.mod_lt _ (by omega)
  have hb1 : bucket_index H NumBuckets v + 1 < NumBuckets := by omega
  have hlen : (final_table H NumBuckets K).length = K.length :=
    final_table_length H NumBuckets K
  have hoff := bucket_offset_le_length (make_bucket_index_table H NumBuckets K)
    (bucket_index H NumBuckets v + 1)
  rw [bucket_table_length] at hoff
  refine ⟨_, make_constexpr_hash_set_built NumBuckets H K hnb, ?_⟩
  by_cases h : bucket_index H NumBuckets v = (K.length + SIZE_WIDTH - 1) % SIZE_WIDTH
  · have hend := bucket_end_built_last H NumBuckets K v h
    refine ⟨⟨_, K.length, offset_table_getElem? NumBuckets _ _ hb, hend, ?_, ?_⟩, ?_⟩
    · show K.length ≤ (final_table H NumBuckets K).length
      omega
    · rw [if_pos h]
    · exact contains_built H NumBuckets K (by omega) v K.length hend hoff (Nat.le_refl _)
  · have hend := bucket_end_built_next H NumBuckets K v h hb1
    refine ⟨⟨_, _, offset_table_getElem? NumBuckets _ _ hb, hend, ?_, ?_⟩, ?_⟩
    · show _ ≤ (final_table H NumBuckets K).length
      omega
    · rw [if_neg h]
      exact offset_table_getElem? NumBuckets _ _ hb1
    · exact contains_built H NumBuckets K (by omega) v _ hend (Nat.le_refl _) hoff

/-- Instance of C17 on the keys `{1, 2}` with 3 buckets and the probe 4, whose bucket is
`1 = N-1 < NumBuckets-1`. -/
theorem C17_query_correct_outside_last_bucket_witness :
    2 < 3 ∧ bucket_index int_hash 3 4 ≠ 3 - 1 ∧
    ∃ s, make_constexpr_hash_set 3 int_hash [1, 2] = .ok s ∧
      (∃ start stop, s.m_bucket_offset_table[bucket_index int_hash 3 4]? = some start ∧
        bucket_end s 4 = some stop ∧ stop ≤ s.m_hash_map.length ∧
        (if bucket_index int_hash 3 4 = (([1, 2] : List Int).length + SIZE_WIDTH - 1) % SIZE_WIDTH
          then stop = ([1, 2] : List Int).length
          else s.m_bucket_offset_table[bucket_index int_hash 3 4 + 1]? = some stop)) ∧
      contains s 4 = some (decide ((4 : Int) ∈ ([1, 2] : List Int))) :=
  ⟨by decide, by decide,
    C17_query_correct_outside_last_bucket 3 int_hash [1, 2] 4 (by decide) (by decide)⟩

/-- C18: for `NumBuckets > 2` the construction yields a set whose final table
`m_hash_map` equals the concatenation, for `b = 0, 1, ..., NumBuckets-1` in increasing
order, of the keys `k` of `K` with `H(k) mod NumBuckets = b`, taken in their original
order. -/
theorem C18_final_table_is_stable_bucket_sort {T : Type} (NumBuckets : Nat) (H : T → Nat)
    (K : List T) (hnb : 2 < NumBuckets) :
    ∃ s, make_constexpr_hash_set NumBuckets H K = .ok s ∧
      s.m_hash_map = stable_bucket_sort H NumBuckets K ∧
      s.m_hash_map = (List.range NumBuckets).flatMap
        (fun b => K.filter (fun k => decide (H k % NumBuckets = b))) :=
  ⟨_, make_constexpr_hash_set_built NumBuckets H K hnb,
    final_table_eq_stable_bucket_sort H NumBuckets K (by omega),
    final_table_eq_stable_bucket_sort H NumBuckets K (by omega)⟩

/-- Instance of C18 on the keys of `main` with 3 buckets. -/
theorem C18_final_table_is_stable_bucket_sort_witness :
    2 < 3 ∧ ∃ s, make_constexpr_hash_set 3 int_hash main_values = .ok s ∧
      s.m_hash_map = stable_bucket_sort int_hash 3 main_values ∧
      s.m_hash_map = (List.range 3).flatMap
        (fun b => main_values.filter (fun k => decide (int_hash k % 3 = b))) :=
  ⟨by decide, C18_final_table_is_stable_bucket_sort 3 int_hash main_values (by decide)⟩

/-- C19: for a bucket-index table `t` with all entries below `NumBuckets`, its offset
table and the slot table made from them, the search of `reverse_index` for every `s < N`
leaves the loop through `return i` (never through the fallback) with `slot[i] = s`; so
`slot[reverse[s]] = s` for every `s < N`, and the reverse table is a permutation of
`[0, N)`. -/
theorem C19_reverse_search_always_finds (NumBuckets : Nat) (t : List Nat)
    (ht : ∀ x ∈ t, x < NumBuckets) :
    ∃ slot_table, make_actual_index_table t (make_bucket_offset_table NumBuckets t)
        = some slot_table ∧
      (∀ s, s < t.length → ∃ i, reverse_index_search slot_table s 0 = some i ∧
        reverse_index slot_table s = i ∧
        (make_reverse_index_table slot_table)[s]? = some i ∧
        slot_table[i]? = some s) ∧
      (make_reverse_index_table slot_table).Perm (List.range t.length) := by
  refine ⟨_, make_actual_index_table_eq NumBuckets t ht, ?_, reverse_table_perm t⟩
  intro s hs
  obtain ⟨i, hi, his⟩ := slot_surj t s hs
  refine ⟨i, ?_, ?_, ?_, ?_⟩
  · rw [← his]; exact reverse_index_search_slot t i hi
  · rw [← his]; exact reverse_index_slot t i hi
  · rw [← his]; exact reverse_table_getElem? t i hi
  · rw [← his]; exact slot_table_getElem? t i hi

/-- Instance of C19 on the bucket ids `{0, 2, 1, 2, 1}` of `main` with 3 buckets, at
slot 4. -/
theorem C19_reverse_search_always_finds_witness :
    (∀ x ∈ [0, 2, 1, 2, 1], x < 3) ∧
    ∃ slot_table, make_actual_index_table [0, 2, 1, 2, 1]
        (make_bucket_offset_table 3 [0, 2, 1, 2, 1]) = some slot_table ∧
      (∃ i, reverse_index_search slot_table 4 0 = some i ∧
        reverse_index slot_table 4 = i ∧
        (make_reverse_index_table slot_table)[4]? = some i ∧
        slot_table[i]? = some 4) ∧
      (make_reverse_index_table slot_table).Perm (List.range [0, 2, 1, 2, 1].length) :=
  ⟨by decide, by
    obtain ⟨st, h1, h2, h3⟩ := C19_reverse_search_always_finds 3 [0, 2, 1, 2, 1] (by decide)
    exact ⟨st, h1, h2 4 (by decide), h3⟩⟩

end ConstexprHashSet

